import Mathlib

/-!
Verification of the MIDI-to-audio rendering core of `src/src/midi_to_audio.py`
(`midi_to_audio_buffer` and `collect_midis_to_audio`).

Modelling conventions:
* Python floats are modelled as exact rationals (`ℚ`).
* Tick deltas are `Nat` (MIDI file deltas are non-negative integers).
* The external DSP collaborators `librosa.effects.pitch_shift` and
  `librosa.effects.time_stretch` are abstracted as arbitrary function
  parameters: every theorem quantifies over them.
* Python `int(x)` (truncation towards zero) is `pyInt`.
* `np.max` over an empty array raises; this is modelled by `Option`
  (`none` = the reduction raises `ValueError`).
-/

namespace MidiToAudio

/-- Modelled from the spec: the tick-to-seconds conversion of the external
MIDI collaborator (`mido.tick2second` applied to `mido.bpm2tempo tempo`),
which `midi_to_audio_buffer` delegates to at line 48.  The spec gives
`seconds = ticks * (60 / (tempo * ticks_per_beat))`. -/
def tick2second (ticks ticksPerBeat tempo : Nat) : ℚ :=
  (ticks : ℚ) * (60 / ((tempo : ℚ) * (ticksPerBeat : ℚ)))

/-- The message kinds distinguished by the scheduling loop
(`msg.type` values `note_on`, `note_off`, `set_tempo`, anything else). -/
inductive MsgType where
  | noteOn
  | noteOff
  | setTempo
  | other
deriving DecidableEq, Repr

/-- A timed MIDI message as consumed by the loop of `midi_to_audio_buffer`:
kind, pitch (`msg.note`), `msg.velocity`, and delta ticks (`msg.time`). -/
structure Msg where
  mtype : MsgType
  note : Nat
  velocity : Nat
  time : Nat
deriving DecidableEq, Repr

/-- The loop state of `midi_to_audio_buffer` lines 38-59: the running clock
`current_time`, the dict `active_notes` (pitch -> pending start times, a
missing key modelled as `[]`), and the accumulated `note_events`. -/
structure SchedState where
  currentTime : ℚ
  activeNotes : Nat → List ℚ
  noteEvents : List (Nat × ℚ × ℚ)

/-- The initial state before the loop: clock 0, no active notes, no events. -/
def initState : SchedState :=
  { currentTime := 0, activeNotes := fun _ => [], noteEvents := [] }

/-- One iteration of the scheduling loop (`midi_to_audio.py` lines 45-59):
advance the clock by the converted delta, skip `set_tempo`, push the clock on
a positive-velocity `note_on`, and on a `note_off` (or zero-velocity
`note_on`) pop the oldest pending start for that pitch, if any, emitting
`(note, start_time, current_time)`. -/
def processMsg (ticksPerBeat tempo : Nat) (s : SchedState) (m : Msg) : SchedState :=
  let t := s.currentTime + tick2second m.time ticksPerBeat tempo
  if m.mtype = MsgType.setTempo then
    { s with currentTime := t }
  else if m.mtype = MsgType.noteOn ∧ 0 < m.velocity then
    { currentTime := t
      activeNotes := fun n => if n = m.note then s.activeNotes m.note ++ [t] else s.activeNotes n
      noteEvents := s.noteEvents }
  else if m.mtype = MsgType.noteOff ∨ (m.mtype = MsgType.noteOn ∧ m.velocity = 0) then
    match s.activeNotes m.note with
    | [] => { s with currentTime := t }
    | st :: rest =>
      { currentTime := t
        activeNotes := fun n => if n = m.note then rest else s.activeNotes n
        noteEvents := s.noteEvents ++ [(m.note, st, t)] }
  else
    { s with currentTime := t }

/-- The whole scheduling pass: fold the loop body over the merged track. -/
def runScheduler (ticksPerBeat tempo : Nat) (msgs : List Msg) : SchedState :=
  msgs.foldl (processMsg ticksPerBeat tempo) initState

/-- The clock value after processing each message in turn, starting from
clock `t0` (the per-message sampled values of `current_time`). -/
def clockTimes (ticksPerBeat tempo : Nat) (t0 : ℚ) : List Msg → List ℚ
  | [] => []
  | m :: ms =>
    let t := t0 + tick2second m.time ticksPerBeat tempo
    t :: clockTimes ticksPerBeat tempo t ms

/-- The final clock value after processing a message list from clock `t0`. -/
def clockAfter (ticksPerBeat tempo : Nat) (t0 : ℚ) (msgs : List Msg) : ℚ :=
  msgs.foldl (fun t m => t + tick2second m.time ticksPerBeat tempo) t0

/-- Python `int(x)`: truncation towards zero. -/
def pyInt (q : ℚ) : ℤ :=
  if 0 ≤ q then ⌊q⌋ else ⌈q⌉

/-- Rounding to the nearest integer, as the spec's `round(...)` reads
(stated only to compare the spec's wording with the code's `int(...)`;
the code itself never rounds). -/
def specRound (q : ℚ) : ℤ :=
  ⌊q + 1 / 2⌋

/-- Fitting one pitch-shifted sample to a note duration
(`midi_to_audio.py` lines 81-92): if the shifted sample's natural length in
seconds exceeds the duration, truncate to `int(duration * sample_rate)`
samples; otherwise time-stretch by `rate = sample_duration / duration`
(the external DSP collaborator `timeStretch` is an arbitrary function here)
and then trim or zero-pad to `int(duration * sample_rate)` samples. -/
def fitSegment (timeStretch : List ℚ → ℚ → List ℚ) (sampleRate : Nat)
    (shifted : List ℚ) (duration : ℚ) : List ℚ :=
  let sampleDuration : ℚ := (shifted.length : ℚ) / (sampleRate : ℚ)
  if duration < sampleDuration then
    shifted.take (pyInt (duration * sampleRate)).toNat
  else
    let rate := sampleDuration / duration
    let stretched := timeStretch shifted rate
    let targetLength := (pyInt (duration * sampleRate)).toNat
    if targetLength < stretched.length then
      stretched.take targetLength
    else
      stretched ++ List.replicate (targetLength - stretched.length) 0

/-- Model of `buffer[start:start+len(seg)] += seg`: elementwise addition of
`seg` into `buf` beginning at index `start`, the rest of `buf` unchanged. -/
def addInto : List ℚ → Nat → List ℚ → List ℚ
  | [], _, _ => []
  | x :: xs, _, [] => x :: xs
  | x :: xs, 0, v :: vs => (x + v) :: addInto xs 0 vs
  | x :: xs, Nat.succ k, v :: vs => x :: addInto xs k (v :: vs)

/-- Placing one processed segment into the track buffer
(`midi_to_audio.py` lines 94-99): `start_sample = int(start_time *
sample_rate)`; if `start_sample + len(seg)` exceeds the buffer length the
buffer is zero-extended to exactly that end index; then the segment is
added in place. -/
def placeSegment (buf : List ℚ) (sampleRate : Nat) (startTime : ℚ)
    (seg : List ℚ) : List ℚ :=
  let startSample := (pyInt (startTime * sampleRate)).toNat
  let endSample := startSample + seg.length
  let grown :=
    if buf.length < endSample then buf ++ List.replicate (endSample - buf.length) 0
    else buf
  addInto grown startSample seg

/-- The body of the per-note rendering loop (`midi_to_audio.py` lines
72-99) for one `(note, start_time, end_time)` event: skip non-positive
durations, otherwise pitch-shift the sample by `note - base_pitch`
semitones (external collaborator `pitchShift`), fit it to the duration and
place it into the buffer. -/
def renderNote (pitchShift : List ℚ → ℤ → List ℚ) (timeStretch : List ℚ → ℚ → List ℚ)
    (sampleAudio : List ℚ) (sampleRate basePitch : Nat)
    (buf : List ℚ) (ev : Nat × ℚ × ℚ) : List ℚ :=
  let duration := ev.2.2 - ev.2.1
  if duration ≤ 0 then buf
  else
    let shifted := pitchShift sampleAudio ((ev.1 : ℤ) - (basePitch : ℤ))
    let processed := fitSegment timeStretch sampleRate shifted duration
    placeSegment buf sampleRate ev.2.1 processed

/-- The `max_time` of `midi_to_audio.py` lines 61-65: the largest `end_time`
among the note events, or the fallback span 60 when there are none. -/
def maxEnd (events : List (Nat × ℚ × ℚ)) : ℚ :=
  match events.map (fun e => e.2.2) with
  | [] => 60
  | x :: xs => xs.foldl max x

/-- The rendering stage of `midi_to_audio_buffer` (lines 67-99): start from
a zero buffer of `int(sample_rate * (max_time + 1))` samples and fold the
per-note loop over the note events. -/
def renderTrack (pitchShift : List ℚ → ℤ → List ℚ) (timeStretch : List ℚ → ℚ → List ℚ)
    (sampleAudio : List ℚ) (sampleRate basePitch : Nat)
    (events : List (Nat × ℚ × ℚ)) : List ℚ :=
  let audioLength := (pyInt ((sampleRate : ℚ) * (maxEnd events + 1))).toNat
  events.foldl (renderNote pitchShift timeStretch sampleAudio sampleRate basePitch)
    (List.replicate audioLength 0)

/-- Model of `np.max` over a list: `none` models the `ValueError` numpy raises on a
zero-size reduction. -/
def npMax (xs : List ℚ) : Option ℚ :=
  match xs with
  | [] => none
  | x :: rest => some (rest.foldl max x)

/-- Peak normalization as written at `midi_to_audio.py` lines 101-102 and
146-147: if `np.max(np.abs(buf)) > 0` divide every sample by that maximum,
otherwise return the buffer unchanged (`none` = `np.max` raised on an
empty buffer). -/
def normalize (buf : List ℚ) : Option (List ℚ) :=
  match npMax (buf.map (fun x => |x|)) with
  | none => none
  | some m => if 0 < m then some (buf.map (fun x => x / m)) else some buf

/-- The whole of `midi_to_audio_buffer` after abstracting the external
collaborators: schedule, render, normalize, and return the buffer together
with `len(audio_buffer) / sample_rate`. -/
def midiToAudioBuffer (pitchShift : List ℚ → ℤ → List ℚ)
    (timeStretch : List ℚ → ℚ → List ℚ) (sampleAudio : List ℚ)
    (msgs : List Msg) (ticksPerBeat tempo sampleRate basePitch : Nat) :
    Option (List ℚ × ℚ) :=
  let events := (runScheduler ticksPerBeat tempo msgs).noteEvents
  let buf := renderTrack pitchShift timeStretch sampleAudio sampleRate basePitch events
  match normalize buf with
  | none => none
  | some nb => some (nb, (nb.length : ℚ) / (sampleRate : ℚ))

/-- The `max_length` of `collect_midis_to_audio` lines 129-136: running maximum
of the track buffer lengths, starting from 0. -/
def maxLength (bufs : List (List ℚ)) : Nat :=
  bufs.foldl (fun m b => max m b.length) 0

/-- Zero-padding a track buffer up to the master length
(`collect_midis_to_audio` lines 141-142). -/
def padTo (b : List ℚ) (n : Nat) : List ℚ :=
  if b.length < n then b ++ List.replicate (n - b.length) 0 else b

/-- The pre-normalization master mix (`collect_midis_to_audio` lines
138-143): a zero buffer of the maximum track length, into which every
track (zero-padded to that length) is summed sample-by-sample. -/
def masterPre (bufs : List (List ℚ)) : List ℚ :=
  let n := maxLength bufs
  bufs.foldl (fun acc b => List.zipWith (fun x y => x + y) acc (padTo b n))
    (List.replicate n 0)

/-- The master-mix stage of `collect_midis_to_audio` (lines 138-147):
sum the padded tracks and peak-normalize the result. -/
def collectMaster (bufs : List (List ℚ)) : Option (List ℚ) :=
  normalize (masterPre bufs)

/-! ### Basic lemmas -/

lemma SchedState.ext_of (s1 s2 : SchedState)
    (h1 : s1.currentTime = s2.currentTime)
    (h2 : ∀ n, s1.activeNotes n = s2.activeNotes n)
    (h3 : s1.noteEvents = s2.noteEvents) : s1 = s2 := by
  cases s1; cases s2
  dsimp at h1 h2 h3
  subst h1; subst h3
  congr 1
  funext n
  exact h2 n

lemma tick2second_nonneg (ticks ticksPerBeat tempo : Nat) :
    0 ≤ tick2second ticks ticksPerBeat tempo := by
  unfold tick2second
  positivity

lemma processMsg_currentTime (ticksPerBeat tempo : Nat) (s : SchedState) (m : Msg) :
    (processMsg ticksPerBeat tempo s m).currentTime
      = s.currentTime + tick2second m.time ticksPerBeat tempo := by
  unfold processMsg
  dsimp only
  split
  · rfl
  split
  · rfl
  split
  · split
    · rfl
    · rfl
  · rfl

lemma clockAfter_nil (ticksPerBeat tempo : Nat) (t0 : ℚ) :
    clockAfter ticksPerBeat tempo t0 [] = t0 := rfl

lemma clockAfter_cons (ticksPerBeat tempo : Nat) (t0 : ℚ) (m : Msg) (ms : List Msg) :
    clockAfter ticksPerBeat tempo t0 (m :: ms)
      = clockAfter ticksPerBeat tempo (t0 + tick2second m.time ticksPerBeat tempo) ms := rfl

lemma clockTimes_nil (ticksPerBeat tempo : Nat) (t0 : ℚ) :
    clockTimes ticksPerBeat tempo t0 [] = [] := rfl

lemma clockTimes_cons (ticksPerBeat tempo : Nat) (t0 : ℚ) (m : Msg) (ms : List Msg) :
    clockTimes ticksPerBeat tempo t0 (m :: ms)
      = (t0 + tick2second m.time ticksPerBeat tempo) ::
          clockTimes ticksPerBeat tempo (t0 + tick2second m.time ticksPerBeat tempo) ms := rfl

lemma clockTimes_length (ticksPerBeat tempo : Nat) :
    ∀ (msgs : List Msg) (t0 : ℚ),
      (clockTimes ticksPerBeat tempo t0 msgs).length = msgs.length
  | [], _ => rfl
  | m :: ms, t0 => by
    rw [clockTimes_cons, List.length_cons, clockTimes_length ticksPerBeat tempo ms,
      List.length_cons]

lemma foldl_currentTime (ticksPerBeat tempo : Nat) :
    ∀ (msgs : List Msg) (s : SchedState),
      (msgs.foldl (processMsg ticksPerBeat tempo) s).currentTime
        = s.currentTime + (msgs.map (fun m => tick2second m.time ticksPerBeat tempo)).sum
  | [], s => by simp
  | m :: ms, s => by
    rw [List.foldl_cons, foldl_currentTime ticksPerBeat tempo ms,
      processMsg_currentTime, List.map_cons, List.sum_cons]
    ring

/-! ### Theorems for the claims -/

/-- Claim C3: the per-event elapsed-seconds conversion equals
`d * (60 / (t * tpb))`, it is additive in the tick delta `d`, doubling the
tempo halves the elapsed seconds, and the running clock of the scheduling
loop is the sum of the per-event deltas starting at 0. -/
theorem eventTimer_conversion (t tpb d : Nat) (ht : 0 < t) (htpb : 0 < tpb) :
    tick2second d tpb t = (d : ℚ) * (60 / ((t : ℚ) * (tpb : ℚ))) ∧
    (∀ d2 : Nat, tick2second (d + d2) tpb t
      = tick2second d tpb t + tick2second d2 tpb t) ∧
    tick2second d tpb (2 * t) = tick2second d tpb t / 2 ∧
    (∀ msgs : List Msg, (runScheduler tpb t msgs).currentTime
      = (msgs.map (fun m => tick2second m.time tpb t)).sum) := by
  have ht0 : ((t : ℚ)) ≠ 0 := by positivity
  have htpb0 : ((tpb : ℚ)) ≠ 0 := by positivity
  refine ⟨rfl, ?_, ?_, ?_⟩
  · intro d2
    unfold tick2second
    push_cast
    ring
  · unfold tick2second
    push_cast
    rw [mul_assoc, div_mul_eq_div_div_swap]
    ring
  · intro msgs
    unfold runScheduler
    rw [foldl_currentTime]
    simp [initState]

/-- Witness for C3 at `t = 120`, `tpb = 480`, `d = 480`: one beat at
120 BPM is half a second. -/
theorem eventTimer_conversion_witness :
    tick2second 480 480 120 = (480 : ℚ) * (60 / ((120 : ℚ) * (480 : ℚ))) ∧
    tick2second 480 480 120 = 1 / 2 := by
  constructor
  · exact (eventTimer_conversion 120 480 480 (by norm_num) (by norm_num)).1
  · norm_num [tick2second]

/-- Claim C7: a note-off (or zero-velocity note-on) at a pitch whose queue of
pending onsets is empty is a no-op: no note instance is emitted, no queue
changes, only the clock advances. -/
theorem orphan_off_noop (ticksPerBeat tempo : Nat) (s : SchedState) (m : Msg)
    (hm : m.mtype = MsgType.noteOff ∨ (m.mtype = MsgType.noteOn ∧ m.velocity = 0))
    (hq : s.activeNotes m.note = []) :
    (processMsg ticksPerBeat tempo s m).noteEvents = s.noteEvents ∧
    (∀ n, (processMsg ticksPerBeat tempo s m).activeNotes n = s.activeNotes n) ∧
    (processMsg ticksPerBeat tempo s m).currentTime
      = s.currentTime + tick2second m.time ticksPerBeat tempo := by
  have hne : ¬ m.mtype = MsgType.setTempo := by
    rcases hm with h | ⟨h, _⟩ <;> simp [h]
  have hno : ¬ (m.mtype = MsgType.noteOn ∧ 0 < m.velocity) := by
    rcases hm with h | ⟨h, hv⟩
    · simp [h]
    · simp [hv]
  unfold processMsg
  dsimp only
  rw [if_neg hne, if_neg hno, if_pos hm, hq]
  exact ⟨rfl, fun _ => rfl, rfl⟩

/-- Witness for C7: an orphan note-off at pitch 3 from the initial state. -/
theorem orphan_off_noop_witness :
    (processMsg 1 60 initState ⟨MsgType.noteOff, 3, 0, 2⟩).noteEvents
        = initState.noteEvents ∧
    (∀ n, (processMsg 1 60 initState ⟨MsgType.noteOff, 3, 0, 2⟩).activeNotes n
        = initState.activeNotes n) ∧
    (processMsg 1 60 initState ⟨MsgType.noteOff, 3, 0, 2⟩).currentTime
        = initState.currentTime + tick2second 2 1 60 :=
  orphan_off_noop 1 60 initState ⟨MsgType.noteOff, 3, 0, 2⟩ (Or.inl rfl) rfl

lemma processMsg_on (ticksPerBeat tempo : Nat) (s : SchedState) (m : Msg)
    (h1 : m.mtype = MsgType.noteOn) (h3 : 0 < m.velocity) :
    processMsg ticksPerBeat tempo s m =
      { currentTime := s.currentTime + tick2second m.time ticksPerBeat tempo
        activeNotes := fun n => if n = m.note then
            s.activeNotes m.note ++ [s.currentTime + tick2second m.time ticksPerBeat tempo]
          else s.activeNotes n
        noteEvents := s.noteEvents } := by
  unfold processMsg
  dsimp only
  rw [if_neg (by simp [h1]), if_pos ⟨h1, h3⟩]

lemma processMsg_off_pop (ticksPerBeat tempo : Nat) (s : SchedState) (m : Msg)
    (h1 : m.mtype = MsgType.noteOff) (st : ℚ) (rest : List ℚ)
    (hq : s.activeNotes m.note = st :: rest) :
    processMsg ticksPerBeat tempo s m =
      { currentTime := s.currentTime + tick2second m.time ticksPerBeat tempo
        activeNotes := fun n => if n = m.note then rest else s.activeNotes n
        noteEvents := s.noteEvents ++
          [(m.note, st, s.currentTime + tick2second m.time ticksPerBeat tempo)] } := by
  unfold processMsg
  dsimp only
  rw [if_neg (by simp [h1]), if_neg (by simp [h1]), if_pos (Or.inl h1), hq]

lemma foldl_ons (ticksPerBeat tempo p : Nat) :
    ∀ (msgs : List Msg) (s : SchedState),
      (∀ m ∈ msgs, m.mtype = MsgType.noteOn ∧ m.note = p ∧ 0 < m.velocity) →
      msgs.foldl (processMsg ticksPerBeat tempo) s =
        { currentTime := clockAfter ticksPerBeat tempo s.currentTime msgs
          activeNotes := fun n => if n = p then
              s.activeNotes p ++ clockTimes ticksPerBeat tempo s.currentTime msgs
            else s.activeNotes n
          noteEvents := s.noteEvents }
  | [], s, _ => by
    apply SchedState.ext_of
    · rfl
    · intro n
      by_cases h : n = p <;> simp [h, clockTimes_nil]
    · rfl
  | m :: ms, s, hall => by
    obtain ⟨h1, h2, h3⟩ := hall m (List.mem_cons_self m ms)
    rw [List.foldl_cons, processMsg_on ticksPerBeat tempo s m h1 h3,
      foldl_ons ticksPerBeat tempo p ms _
        (fun x hx => hall x (List.mem_cons_of_mem m hx))]
    apply SchedState.ext_of
    · rw [clockAfter_cons]
    · intro n
      by_cases h : n = p <;>
        simp [h, h2, clockTimes_cons, List.append_assoc]
    · rfl

lemma foldl_offs (ticksPerBeat tempo p : Nat) :
    ∀ (msgs : List Msg) (s : SchedState),
      (∀ m ∈ msgs, m.mtype = MsgType.noteOff ∧ m.note = p) →
      msgs.length ≤ (s.activeNotes p).length →
      msgs.foldl (processMsg ticksPerBeat tempo) s =
        { currentTime := clockAfter ticksPerBeat tempo s.currentTime msgs
          activeNotes := fun n => if n = p then (s.activeNotes p).drop msgs.length
            else s.activeNotes n
          noteEvents := s.noteEvents ++
            (((s.activeNotes p).take msgs.length).zip
              (clockTimes ticksPerBeat tempo s.currentTime msgs)).map
              (fun q => (p, q.1, q.2)) }
  | [], s, _, _ => by
    apply SchedState.ext_of
    · rfl
    · intro n
      by_cases h : n = p <;> simp [h]
    · simp [clockTimes_nil]
  | m :: ms, s, hall, hlen => by
    obtain ⟨h1, h2⟩ := hall m (List.mem_cons_self m ms)
    obtain ⟨st, rest, hq⟩ : ∃ st rest, s.activeNotes p = st :: rest := by
      cases hsq : s.activeNotes p with
      | nil => rw [hsq] at hlen; exact absurd hlen (by simp)
      | cons a l => exact ⟨a, l, rfl⟩
    have hq' : s.activeNotes m.note = st :: rest := by rw [h2, hq]
    have hrest : ms.length ≤ rest.length := by
      rw [hq, List.length_cons] at hlen
      simpa using hlen
    rw [List.foldl_cons, processMsg_off_pop ticksPerBeat tempo s m h1 st rest hq',
      foldl_offs ticksPerBeat tempo p ms _
        (fun x hx => hall x (List.mem_cons_of_mem m hx)) (by simpa [h2] using hrest)]
    apply SchedState.ext_of
    · rw [clockAfter_cons]
    · intro n
      by_cases h : n = p <;> simp [h, h2, hq]
    · dsimp only
      rw [h2]
      simp only [if_pos rfl]
      rw [hq, List.length_cons, List.take_succ_cons, clockTimes_cons,
        List.zip_cons_cons, List.map_cons, List.append_assoc]
      rfl

lemma zip_take_length {α β : Type} :
    ∀ (l2 : List β) (l1 : List α), (l1.take l2.length).zip l2 = l1.zip l2
  | [], l1 => by simp
  | b :: bs, [] => by simp
  | b :: bs, a :: as_ => by
    rw [List.length_cons, List.take_succ_cons, List.zip_cons_cons,
      List.zip_cons_cons, zip_take_length bs as_]

/-- Claim C1: for a stream of `N` positive-velocity note-ons at pitch `p`
followed by `M ≤ N` note-offs at pitch `p`, the scheduling loop emits
exactly `M` note instances, pairing the i-th note-on's clock time with the
i-th note-off's clock time in arrival order (FIFO), and the `N - M` onsets
still open at end-of-stream emit nothing (they remain in the queue). -/
theorem scheduler_fifo (ticksPerBeat tempo p : Nat) (onMsgs offMsgs : List Msg)
    (hOn : ∀ m ∈ onMsgs, m.mtype = MsgType.noteOn ∧ m.note = p ∧ 0 < m.velocity)
    (hOff : ∀ m ∈ offMsgs, m.mtype = MsgType.noteOff ∧ m.note = p)
    (hMN : offMsgs.length ≤ onMsgs.length) :
    (runScheduler ticksPerBeat tempo (onMsgs ++ offMsgs)).noteEvents =
      ((clockTimes ticksPerBeat tempo 0 onMsgs).zip
        (clockTimes ticksPerBeat tempo (clockAfter ticksPerBeat tempo 0 onMsgs)
          offMsgs)).map (fun q => (p, q.1, q.2)) ∧
    (runScheduler ticksPerBeat tempo (onMsgs ++ offMsgs)).noteEvents.length
      = offMsgs.length ∧
    (runScheduler ticksPerBeat tempo (onMsgs ++ offMsgs)).activeNotes p =
      (clockTimes ticksPerBeat tempo 0 onMsgs).drop offMsgs.length := by
  have hinit : (initState.activeNotes p) = [] := rfl
  have hA := foldl_ons ticksPerBeat tempo p onMsgs initState hOn
  have honlen := clockTimes_length ticksPerBeat tempo onMsgs (0 : ℚ)
  have hofflen := clockTimes_length ticksPerBeat tempo offMsgs
    (clockAfter ticksPerBeat tempo 0 onMsgs)
  unfold runScheduler
  rw [List.foldl_append, hA]
  rw [foldl_offs ticksPerBeat tempo p offMsgs _ hOff
    (by simp [initState, honlen, hMN])]
  dsimp only
  simp only [eq_self_iff_true, if_true, initState, List.nil_append]
  refine ⟨?_, ?_, trivial⟩
  · rw [← hofflen, zip_take_length]
  · simp only [List.length_map, List.length_zip, List.length_take, honlen, hofflen]
    omega

/-- Witness for C1: two note-ons at pitch 5 (ticks 1 and 2) followed by one
note-off (tick 1) at `tpb = 1`, `tempo = 60` pair FIFO into one instance
`(5, 1, 4)` and leave the second onset (time 3) open. -/
theorem scheduler_fifo_witness :
    (runScheduler 1 60
        ([⟨MsgType.noteOn, 5, 1, 1⟩, ⟨MsgType.noteOn, 5, 2, 2⟩] ++
          [⟨MsgType.noteOff, 5, 0, 1⟩])).noteEvents = [(5, 1, 4)] ∧
    (runScheduler 1 60
        ([⟨MsgType.noteOn, 5, 1, 1⟩, ⟨MsgType.noteOn, 5, 2, 2⟩] ++
          [⟨MsgType.noteOff, 5, 0, 1⟩])).activeNotes 5 = [3] := by
  have h := scheduler_fifo 1 60 5
    [⟨MsgType.noteOn, 5, 1, 1⟩, ⟨MsgType.noteOn, 5, 2, 2⟩]
    [⟨MsgType.noteOff, 5, 0, 1⟩]
    (by decide) (by decide) (by decide)
  obtain ⟨h1, _, h3⟩ := h
  constructor
  · rw [h1]
    norm_num [clockTimes_cons, clockTimes_nil, clockAfter_cons, clockAfter_nil,
      tick2second]
  · rw [h3]
    norm_num [clockTimes_cons, clockTimes_nil, tick2second]

lemma processMsg_invariant (ticksPerBeat tempo : Nat) (s : SchedState) (m : Msg)
    (hA : ∀ n t, t ∈ s.activeNotes n → t ≤ s.currentTime)
    (hE : ∀ e ∈ s.noteEvents, e.2.1 ≤ e.2.2) :
    (∀ n t, t ∈ (processMsg ticksPerBeat tempo s m).activeNotes n →
      t ≤ (processMsg ticksPerBeat tempo s m).currentTime) ∧
    (∀ e ∈ (processMsg ticksPerBeat tempo s m).noteEvents, e.2.1 ≤ e.2.2) := by
  have hd : (0 : ℚ) ≤ tick2second m.time ticksPerBeat tempo :=
    tick2second_nonneg _ _ _
  have hst : s.currentTime ≤ s.currentTime + tick2second m.time ticksPerBeat tempo :=
    le_add_of_nonneg_right hd
  unfold processMsg
  dsimp only
  split
  · exact ⟨fun n t ht => le_trans (hA n t ht) hst, hE⟩
  split
  · refine ⟨fun n t ht => ?_, hE⟩
    dsimp at ht
    by_cases h : n = m.note
    · rw [if_pos h] at ht
      rcases List.mem_append.mp ht with h' | h'
      · exact le_trans (hA m.note t h') hst
      · rw [List.mem_singleton] at h'
        exact le_of_eq h'
    · rw [if_neg h] at ht
      exact le_trans (hA n t ht) hst
  split
  · split
    · exact ⟨fun n t ht => le_trans (hA n t ht) hst, hE⟩
    · rename_i st rest hq
      refine ⟨fun n t ht => ?_, fun e he => ?_⟩
      · dsimp at ht ⊢
        by_cases h : n = m.note
        · rw [if_pos h] at ht
          have : t ∈ s.activeNotes m.note := by rw [hq]; exact List.mem_cons_of_mem st ht
          exact le_trans (hA m.note t this) hst
        · rw [if_neg h] at ht
          exact le_trans (hA n t ht) hst
      · dsimp at he
        rcases List.mem_append.mp he with h' | h'
        · exact hE e h'
        · rw [List.mem_singleton] at h'
          subst h'
          dsimp
          have : st ∈ s.activeNotes m.note := by rw [hq]; exact List.mem_cons_self st rest
          exact le_trans (hA m.note st this) hst
  · exact ⟨fun n t ht => le_trans (hA n t ht) hst, hE⟩

lemma foldl_invariant (ticksPerBeat tempo : Nat) :
    ∀ (msgs : List Msg) (s : SchedState),
      (∀ n t, t ∈ s.activeNotes n → t ≤ s.currentTime) →
      (∀ e ∈ s.noteEvents, e.2.1 ≤ e.2.2) →
      ∀ e ∈ (msgs.foldl (processMsg ticksPerBeat tempo) s).noteEvents, e.2.1 ≤ e.2.2
  | [], s, _, hE => hE
  | m :: ms, s, hA, hE => by
    rw [List.foldl_cons]
    obtain ⟨hA', hE'⟩ := processMsg_invariant ticksPerBeat tempo s m hA hE
    exact foldl_invariant ticksPerBeat tempo ms _ hA' hE'

/-- Claim C8: every note instance emitted by the scheduling loop satisfies
`end_time ≥ start_time` (tick deltas are non-negative by the type of
`Msg.time`), and the rendering loop leaves the buffer untouched for any
instance of non-positive duration, whatever the DSP collaborators are. -/
theorem note_instances_wellformed :
    (∀ (ticksPerBeat tempo : Nat) (msgs : List Msg),
      ∀ e ∈ (runScheduler ticksPerBeat tempo msgs).noteEvents, e.2.1 ≤ e.2.2) ∧
    (∀ (pitchShift : List ℚ → ℤ → List ℚ) (timeStretch : List ℚ → ℚ → List ℚ)
      (sampleAudio : List ℚ) (sampleRate basePitch : Nat)
      (buf : List ℚ) (ev : Nat × ℚ × ℚ), ev.2.2 - ev.2.1 ≤ 0 →
      renderNote pitchShift timeStretch sampleAudio sampleRate basePitch buf ev
        = buf) := by
  constructor
  · intro ticksPerBeat tempo msgs
    exact foldl_invariant ticksPerBeat tempo msgs initState
      (fun n t ht => absurd ht (List.not_mem_nil t))
      (fun e he => absurd he (List.not_mem_nil e))
  · intro pitchShift timeStretch sampleAudio sampleRate basePitch buf ev h
    unfold renderNote
    rw [if_pos h]

/-- Witness for C8: a concrete on/off stream, and a zero-duration instance
`(5, 2, 2)` that is skipped by the rendering loop. -/
theorem note_instances_wellformed_witness :
    (∀ e ∈ (runScheduler 1 60
        [⟨MsgType.noteOn, 5, 1, 1⟩, ⟨MsgType.noteOff, 5, 0, 1⟩]).noteEvents,
      e.2.1 ≤ e.2.2) ∧
    ((2 : ℚ) - 2 ≤ 0 ∧
      renderNote (fun l _ => l) (fun l _ => l) [1] 10 60 [0] (5, 2, 2) = [0]) :=
  ⟨note_instances_wellformed.1 1 60 _,
    by norm_num,
    note_instances_wellformed.2 (fun l _ => l) (fun l _ => l) [1] 10 60 [0] (5, 2, 2)
      (by norm_num)⟩

lemma le_foldl_max {α : Type} [LinearOrder α] :
    ∀ (xs : List α) (a : α), a ≤ xs.foldl max a
  | [], a => le_refl a
  | x :: xs, a => by
    rw [List.foldl_cons]
    exact le_trans (le_max_left a x) (le_foldl_max xs (max a x))

lemma mem_le_foldl_max {α : Type} [LinearOrder α] :
    ∀ (xs : List α) (a y : α), y ∈ xs → y ≤ xs.foldl max a
  | [], _, y, hy => absurd hy (List.not_mem_nil y)
  | x :: xs, a, y, hy => by
    rw [List.foldl_cons]
    rcases List.mem_cons.mp hy with h | h
    · subst h
      exact le_trans (le_max_right a y) (le_foldl_max xs (max a y))
    · exact mem_le_foldl_max xs (max a x) y h

lemma foldl_max_cases {α : Type} [LinearOrder α] :
    ∀ (xs : List α) (a : α), xs.foldl max a = a ∨ xs.foldl max a ∈ xs
  | [], a => Or.inl rfl
  | x :: xs, a => by
    rw [List.foldl_cons]
    rcases foldl_max_cases xs (max a x) with h | h
    · rcases max_choice a x with h' | h'
      · exact Or.inl (h.trans h')
      · exact Or.inr (by rw [h, h']; exact List.mem_cons_self x xs)
    · exact Or.inr (List.mem_cons_of_mem x h)

lemma npMax_spec (x : ℚ) (xs : List ℚ) :
    ∃ m, npMax (x :: xs) = some m ∧ (∀ y ∈ x :: xs, y ≤ m) ∧ m ∈ x :: xs := by
  refine ⟨xs.foldl max x, rfl, fun y hy => ?_, ?_⟩
  · rcases List.mem_cons.mp hy with h | h
    · subst h; exact le_foldl_max xs y
    · exact mem_le_foldl_max xs x y h
  · rcases foldl_max_cases xs x with h | h
    · rw [h]; exact List.mem_cons_self x xs
    · exact List.mem_cons_of_mem x h

/-- Claim C4: peak normalization (the common tail of both mix stages) maps a
non-empty buffer to a buffer whose samples all lie in `[-1, 1]`; if the
input has a non-zero sample the output's maximum absolute value is exactly
1; an all-zero buffer is returned unchanged. -/
theorem normalize_peak (buf : List ℚ) (hne : buf ≠ []) :
    ∃ out, normalize buf = some out ∧
      (∀ x ∈ out, |x| ≤ 1) ∧
      ((∃ x ∈ buf, x ≠ 0) → ∃ x ∈ out, |x| = 1) ∧
      ((∀ x ∈ buf, x = 0) → out = buf) := by
  obtain ⟨y, ys, rfl⟩ := List.exists_cons_of_ne_nil hne
  have hmap : (y :: ys).map (fun x => |x|) = |y| :: ys.map (fun x => |x|) :=
    List.map_cons _ _ _
  obtain ⟨m, hm, hub, hmem⟩ := npMax_spec (|y|) (ys.map (fun x => |x|))
  have hub' : ∀ x ∈ y :: ys, |x| ≤ m := by
    intro x hx
    exact hub (|x|) (by rw [← hmap]; exact List.mem_map_of_mem (fun x => |x|) hx)
  obtain ⟨x0, hx0, hx0m⟩ : ∃ x0 ∈ y :: ys, |x0| = m := by
    have : m ∈ (y :: ys).map (fun x => |x|) := by rw [hmap]; exact hmem
    obtain ⟨x0, hx0, he⟩ := List.mem_map.mp this
    exact ⟨x0, hx0, he⟩
  have hnorm : normalize (y :: ys) =
      if 0 < m then some ((y :: ys).map (fun x => x / m)) else some (y :: ys) := by
    unfold normalize
    rw [hmap, hm]
  by_cases hpos : 0 < m
  · refine ⟨(y :: ys).map (fun x => x / m), by rw [hnorm, if_pos hpos], ?_, ?_, ?_⟩
    · intro x hx
      obtain ⟨z, hz, rfl⟩ := List.mem_map.mp hx
      rw [abs_div, abs_of_pos hpos]
      exact div_le_one_of_le₀ (hub' z hz) (le_of_lt hpos)
    · intro _
      refine ⟨x0 / m, List.mem_map_of_mem _ hx0, ?_⟩
      rw [abs_div, abs_of_pos hpos, hx0m, div_self (ne_of_gt hpos)]
    · intro hall
      have : m = 0 := by rw [← hx0m, hall x0 hx0, abs_zero]
      rw [this] at hpos
      exact absurd hpos (lt_irrefl 0)
  · refine ⟨y :: ys, by rw [hnorm, if_neg hpos], ?_, ?_, fun _ => rfl⟩
    · intro x hx
      have h1 : |x| ≤ m := hub' x hx
      have h2 : m ≤ 0 := not_lt.mp hpos
      calc |x| ≤ m := h1
        _ ≤ 0 := h2
        _ ≤ 1 := by norm_num
    · intro ⟨z, hz, hz0⟩
      exfalso
      have h1 : |z| ≤ m := hub' z hz
      have h2 : m ≤ 0 := not_lt.mp hpos
      have : |z| = 0 := le_antisymm (h1.trans h2) (abs_nonneg z)
      exact hz0 (abs_eq_zero.mp this)

/-- Witness for C4 at the buffer `[1/2, -2]`: normalization divides by 2,
giving `[1/4, -1]` with peak exactly 1. -/
theorem normalize_peak_witness :
    ([(1 : ℚ) / 2, -2] ≠ []) ∧
    (∃ out, normalize [(1 : ℚ) / 2, -2] = some out ∧
      (∀ x ∈ out, |x| ≤ 1) ∧
      ((∃ x ∈ [(1 : ℚ) / 2, -2], x ≠ 0) → ∃ x ∈ out, |x| = 1) ∧
      ((∀ x ∈ [(1 : ℚ) / 2, -2], x = 0) → out = [(1 : ℚ) / 2, -2])) :=
  ⟨by simp, normalize_peak [(1 : ℚ) / 2, -2] (by simp)⟩

lemma normalize_cons (x : ℚ) (xs : List ℚ) :
    normalize (x :: xs) =
      if 0 < (xs.map (fun z => |z|)).foldl max (|x|) then
        some ((x :: xs).map (fun z => z / (xs.map (fun z => |z|)).foldl max (|x|)))
      else some (x :: xs) := by
  unfold normalize npMax
  rw [List.map_cons]

lemma getD_replicate_zero : ∀ (n i : Nat), (List.replicate n (0 : ℚ)).getD i 0 = 0
  | 0, _ => rfl
  | n + 1, 0 => rfl
  | n + 1, i + 1 => by
    rw [List.replicate_succ, List.getD_cons_succ]
    exact getD_replicate_zero n i

lemma getD_zipWith_add :
    ∀ (l1 l2 : List ℚ) (i : Nat), l1.length = l2.length →
      (List.zipWith (fun x y => x + y) l1 l2).getD i 0 = l1.getD i 0 + l2.getD i 0
  | [], [], i, _ => by simp
  | [], y :: ys, i, h => by simp at h
  | x :: xs, [], i, h => by simp at h
  | x :: xs, y :: ys, 0, _ => by simp
  | x :: xs, y :: ys, i + 1, h => by
    rw [List.zipWith_cons_cons, List.getD_cons_succ, List.getD_cons_succ,
      List.getD_cons_succ]
    exact getD_zipWith_add xs ys i (by simpa using h)

lemma padTo_length (b : List ℚ) (n : Nat) (h : b.length ≤ n) :
    (padTo b n).length = n := by
  unfold padTo
  split
  · rw [List.length_append, List.length_replicate]
    omega
  · omega

lemma padTo_getD (b : List ℚ) (n i : Nat) :
    (padTo b n).getD i 0 = b.getD i 0 := by
  unfold padTo
  split
  · by_cases h : i < b.length
    · exact List.getD_append b _ 0 i h
    · rw [List.getD_eq_default _ _ (by omega : b.length ≤ i)]
      by_cases h2 : i < (b ++ List.replicate (n - b.length) 0).length
      · rw [List.getD_append_right b _ 0 i (by omega)]
        exact getD_replicate_zero _ _
      · exact List.getD_eq_default _ _ (by omega)
  · rfl

lemma maxLength_eq_foldl (bufs : List (List ℚ)) :
    maxLength bufs = (bufs.map List.length).foldl max 0 := by
  unfold maxLength
  rw [List.foldl_map]

lemma length_le_maxLength (bufs : List (List ℚ)) (b : List ℚ) (h : b ∈ bufs) :
    b.length ≤ maxLength bufs := by
  rw [maxLength_eq_foldl]
  exact mem_le_foldl_max _ 0 _ (List.mem_map_of_mem List.length h)

lemma masterPre_foldl (n : Nat) :
    ∀ (bufs : List (List ℚ)) (acc : List ℚ),
      acc.length = n → (∀ b ∈ bufs, b.length ≤ n) →
      (bufs.foldl (fun acc b => List.zipWith (fun x y => x + y) acc (padTo b n))
        acc).length = n ∧
      ∀ i, (bufs.foldl (fun acc b => List.zipWith (fun x y => x + y) acc (padTo b n))
          acc).getD i 0
        = acc.getD i 0 + (bufs.map (fun b => b.getD i 0)).sum
  | [], acc, hacc, _ => by simp [hacc]
  | b :: bs, acc, hacc, hall => by
    have hb : b.length ≤ n := hall b (List.mem_cons_self b bs)
    have hlen : (List.zipWith (fun x y => x + y) acc (padTo b n)).length = n := by
      rw [List.length_zipWith, hacc, padTo_length b n hb]
      exact min_self n
    obtain ⟨ih1, ih2⟩ := masterPre_foldl n bs
      (List.zipWith (fun x y => x + y) acc (padTo b n)) hlen
      (fun x hx => hall x (List.mem_cons_of_mem b hx))
    rw [List.foldl_cons]
    refine ⟨ih1, fun i => ?_⟩
    rw [ih2 i, getD_zipWith_add acc (padTo b n) i (by rw [hacc, padTo_length b n hb]),
      padTo_getD, List.map_cons, List.sum_cons]
    ring

lemma masterPre_length (bufs : List (List ℚ)) :
    (masterPre bufs).length = maxLength bufs := by
  unfold masterPre
  exact (masterPre_foldl (maxLength bufs) bufs _ (List.length_replicate _ _)
    (fun b hb => length_le_maxLength bufs b hb)).1

lemma masterPre_getD (bufs : List (List ℚ)) (i : Nat) :
    (masterPre bufs).getD i 0 = (bufs.map (fun b => b.getD i 0)).sum := by
  unfold masterPre
  rw [(masterPre_foldl (maxLength bufs) bufs _ (List.length_replicate _ _)
    (fun b hb => length_le_maxLength bufs b hb)).2 i, getD_replicate_zero, zero_add]

/-- Claim C5: the pre-normalization master buffer has length equal to the
maximum of the track lengths (attained by some track), and each of its
samples is the sum of the corresponding samples of all tracks, a track
contributing zero beyond its own length. -/
theorem master_mix_sum (bufs : List (List ℚ)) (hne : bufs ≠ []) :
    (masterPre bufs).length = maxLength bufs ∧
    (∀ b ∈ bufs, b.length ≤ maxLength bufs) ∧
    (∃ b ∈ bufs, b.length = maxLength bufs) ∧
    (∀ i, (masterPre bufs).getD i 0 = (bufs.map (fun b => b.getD i 0)).sum) := by
  refine ⟨masterPre_length bufs, fun b hb => length_le_maxLength bufs b hb, ?_,
    fun i => masterPre_getD bufs i⟩
  rw [maxLength_eq_foldl]
  rcases foldl_max_cases (bufs.map List.length) 0 with h | h
  · obtain ⟨b, bs, rfl⟩ := List.exists_cons_of_ne_nil hne
    refine ⟨b, List.mem_cons_self b bs, ?_⟩
    have hb := length_le_maxLength (b :: bs) b (List.mem_cons_self b bs)
    rw [maxLength_eq_foldl] at hb
    omega
  · obtain ⟨b, hb, he⟩ := List.mem_map.mp h
    exact ⟨b, hb, he⟩

/-- Witness for C5 at the track list `[[1, 2], [3]]`: master length 2 and
samples `[1 + 3, 2 + 0]` before normalization. -/
theorem master_mix_sum_witness :
    ([[(1 : ℚ), 2], [3]] ≠ []) ∧
    ((masterPre [[(1 : ℚ), 2], [3]]).length = maxLength [[(1 : ℚ), 2], [3]] ∧
      (∀ b ∈ [[(1 : ℚ), 2], [3]], b.length ≤ maxLength [[(1 : ℚ), 2], [3]]) ∧
      (∃ b ∈ [[(1 : ℚ), 2], [3]], b.length = maxLength [[(1 : ℚ), 2], [3]]) ∧
      (∀ i, (masterPre [[(1 : ℚ), 2], [3]]).getD i 0
        = ([[(1 : ℚ), 2], [3]].map (fun b => b.getD i 0)).sum)) :=
  ⟨by simp, master_mix_sum [[(1 : ℚ), 2], [3]] (by simp)⟩

/-- Claim C10: with an empty sources list the master-mix stage fails (the
max-abs reduction is applied to a zero-length buffer, which numpy rejects),
while any list containing a non-empty track buffer succeeds: at least one
source is an unstated precondition. -/
theorem master_empty_sources :
    collectMaster [] = none ∧
    ∀ bufs : List (List ℚ), (∃ b ∈ bufs, b ≠ []) → (collectMaster bufs).isSome = true := by
  constructor
  · rfl
  · intro bufs ⟨b, hb, hbne⟩
    have h1 : 0 < b.length := List.length_pos.mpr hbne
    have h2 : 0 < (masterPre bufs).length := by
      rw [masterPre_length]
      exact lt_of_lt_of_le h1 (length_le_maxLength bufs b hb)
    unfold collectMaster
    cases hmp : masterPre bufs with
    | nil => rw [hmp] at h2; exact absurd h2 (by simp)
    | cons x xs =>
      rw [normalize_cons]
      split <;> rfl

/-- Witness for C10's second part: a single non-empty track `[1]` makes the
master stage succeed. -/
theorem master_empty_sources_witness :
    (∃ b ∈ [[(1 : ℚ)]], b ≠ []) ∧ (collectMaster [[(1 : ℚ)]]).isSome = true :=
  ⟨⟨[1], by simp, by simp⟩,
    master_empty_sources.2 [[(1 : ℚ)]] ⟨[1], by simp, by simp⟩⟩

lemma pyInt_toNat_le (q : ℚ) (h : 0 ≤ q) : ((pyInt q).toNat : ℚ) ≤ q := by
  unfold pyInt
  rw [if_pos h]
  have h1 : (0 : ℤ) ≤ ⌊q⌋ := Int.floor_nonneg.mpr h
  have h2 : ((⌊q⌋.toNat : ℕ) : ℤ) = ⌊q⌋ := Int.toNat_of_nonneg h1
  have h3 : ((⌊q⌋.toNat : ℕ) : ℚ) = ((⌊q⌋ : ℤ) : ℚ) := by
    rw [← h2]
    norm_cast
  rw [h3]
  exact Int.floor_le q

/-- Claim C2 (amended): the rendered segment of a positive-duration note has
length exactly `int(duration * sample_rate)` samples — Python truncation,
not `round` — in both the truncation branch and the time-stretch branch,
whatever the external time-stretch collaborator returns. -/
theorem rendered_length_int (timeStretch : List ℚ → ℚ → List ℚ)
    (shifted : List ℚ) (sampleRate : Nat) (duration : ℚ)
    (hsr : 0 < sampleRate) (hd : 0 < duration) :
    (fitSegment timeStretch sampleRate shifted duration).length
      = (pyInt (duration * sampleRate)).toNat := by
  have hsrq : (0 : ℚ) < (sampleRate : ℚ) := by exact_mod_cast hsr
  have h0 : (0 : ℚ) ≤ duration * sampleRate := by positivity
  have hle : ((pyInt (duration * sampleRate)).toNat : ℚ) ≤ duration * sampleRate :=
    pyInt_toNat_le _ h0
  unfold fitSegment
  dsimp only
  split
  · rename_i hbr
    have hlt1 : duration * sampleRate < (shifted.length : ℚ) :=
      (lt_div_iff₀ hsrq).mp hbr
    have hlt : (pyInt (duration * sampleRate)).toNat < shifted.length := by
      by_contra hc
      push_neg at hc
      have : (shifted.length : ℚ) ≤ ((pyInt (duration * sampleRate)).toNat : ℚ) := by
        exact_mod_cast hc
      linarith
    rw [List.length_take]
    omega
  · split
    · rename_i hbr2
      rw [List.length_take]
      omega
    · rename_i hbr2
      rw [List.length_append, List.length_replicate]
      omega

/-- Witness for C2's amended theorem at `duration = 0.27`, `sample_rate =
10` (truncation branch). -/
theorem rendered_length_int_witness :
    (0 : ℚ) < 27 / 100 ∧
    (fitSegment (fun l _ => l) 10 [1, 1, 1] (27 / 100)).length
      = (pyInt ((27 / 100 : ℚ) * ((10 : ℕ) : ℚ))).toNat :=
  ⟨by norm_num,
    rendered_length_int (fun l _ => l) [1, 1, 1] 10 (27 / 100)
      (by norm_num) (by norm_num)⟩

/-- Claim C2 counterexample: at `duration = 0.27 s`, `sample_rate = 10` the
code's segment has 2 samples (`int(2.7)`), not `round(2.7) = 3` as the
claim states. -/
theorem rendered_length_not_round :
    (fitSegment (fun l _ => l) 10 [1, 1, 1] (27 / 100)).length = 2 ∧
    specRound ((27 / 100 : ℚ) * ((10 : ℕ) : ℚ)) = 3 := by
  have hf : ⌊(27 / 100 : ℚ) * ((10 : ℕ) : ℚ)⌋ = (2 : ℤ) := by
    rw [Int.floor_eq_iff]
    constructor <;> norm_num
  constructor
  · norm_num [fitSegment, pyInt, hf]
    decide
  · rw [specRound, Int.floor_eq_iff]
    constructor <;> norm_num

lemma addInto_length : ∀ (buf : List ℚ) (start : Nat) (seg : List ℚ),
    (addInto buf start seg).length = buf.length
  | [], _, _ => rfl
  | _ :: _, _, [] => by simp [addInto]
  | x :: xs, 0, v :: vs => by
    rw [addInto, List.length_cons, List.length_cons, addInto_length xs 0 vs]
  | x :: xs, k + 1, v :: vs => by
    rw [addInto, List.length_cons, List.length_cons, addInto_length xs k (v :: vs)]

lemma addInto_getD : ∀ (buf : List ℚ) (start : Nat) (seg : List ℚ) (i : Nat),
    (addInto buf start seg).getD i 0 =
      buf.getD i 0 +
        (if start ≤ i ∧ i < start + seg.length ∧ i < buf.length
         then seg.getD (i - start) 0 else 0)
  | [], s, seg, i => by simp [addInto]
  | x :: xs, s, [], i => by simp [addInto]
  | x :: xs, 0, v :: vs, 0 => by simp [addInto]
  | x :: xs, 0, v :: vs, i + 1 => by
    have ih := addInto_getD xs 0 vs i
    simp only [addInto, List.getD_cons_succ, List.length_cons, Nat.sub_zero] at ih ⊢
    rw [ih]
    congr 1
    refine if_congr ?_ rfl rfl
    omega
  | x :: xs, k + 1, v :: vs, 0 => by
    simp [addInto]
  | x :: xs, k + 1, v :: vs, i + 1 => by
    have ih := addInto_getD xs k (v :: vs) i
    simp only [addInto, List.getD_cons_succ, List.length_cons, Nat.succ_sub_succ] at ih ⊢
    rw [ih]
    congr 1
    refine if_congr ?_ rfl rfl
    omega

lemma getD_append_replicate_zero (buf : List ℚ) (k i : Nat) :
    (buf ++ List.replicate k (0 : ℚ)).getD i 0 = buf.getD i 0 := by
  by_cases h : i < buf.length
  · exact List.getD_append buf _ 0 i h
  · rw [List.getD_append_right buf _ 0 i (by omega), getD_replicate_zero,
      List.getD_eq_default buf 0 (by omega : buf.length ≤ i)]

lemma placeSegment_length (buf : List ℚ) (sampleRate : Nat) (startTime : ℚ)
    (seg : List ℚ) :
    (placeSegment buf sampleRate startTime seg).length
      = max buf.length ((pyInt (startTime * sampleRate)).toNat + seg.length) := by
  unfold placeSegment
  dsimp only
  rw [addInto_length]
  split
  · rename_i h
    rw [List.length_append, List.length_replicate]
    omega
  · rename_i h
    omega

lemma placeSegment_getD (buf : List ℚ) (sampleRate : Nat) (startTime : ℚ)
    (seg : List ℚ) (i : Nat) :
    (placeSegment buf sampleRate startTime seg).getD i 0 =
      buf.getD i 0 +
        (if (pyInt (startTime * sampleRate)).toNat ≤ i ∧
            i < (pyInt (startTime * sampleRate)).toNat + seg.length
         then seg.getD (i - (pyInt (startTime * sampleRate)).toNat) 0 else 0) := by
  unfold placeSegment
  dsimp only
  rw [addInto_getD]
  split
  · rename_i h
    rw [getD_append_replicate_zero]
    have hlen : (buf ++ List.replicate
        ((pyInt (startTime * sampleRate)).toNat + seg.length - buf.length)
          (0 : ℚ)).length
        = (pyInt (startTime * sampleRate)).toNat + seg.length := by
      rw [List.length_append, List.length_replicate]
      omega
    simp only [hlen]
    congr 1
    refine if_congr ?_ rfl rfl
    omega
  · rename_i h
    congr 1
    refine if_congr ?_ rfl rfl
    omega

lemma renderNote_length_le (pitchShift : List ℚ → ℤ → List ℚ)
    (timeStretch : List ℚ → ℚ → List ℚ) (sampleAudio : List ℚ)
    (sampleRate basePitch : Nat) (buf : List ℚ) (ev : Nat × ℚ × ℚ) :
    buf.length ≤
      (renderNote pitchShift timeStretch sampleAudio sampleRate basePitch buf ev).length := by
  unfold renderNote
  dsimp only
  split
  · exact le_refl _
  · rw [placeSegment_length]
    exact le_max_left _ _

lemma renderLoop_length_mono (pitchShift : List ℚ → ℤ → List ℚ)
    (timeStretch : List ℚ → ℚ → List ℚ) (sampleAudio : List ℚ)
    (sampleRate basePitch : Nat) :
    ∀ (events : List (Nat × ℚ × ℚ)) (buf : List ℚ),
      buf.length ≤ (events.foldl
        (renderNote pitchShift timeStretch sampleAudio sampleRate basePitch) buf).length
  | [], _ => le_refl _
  | ev :: evs, buf =>
    le_trans
      (renderNote_length_le pitchShift timeStretch sampleAudio sampleRate basePitch buf ev)
      (renderLoop_length_mono pitchShift timeStretch sampleAudio sampleRate basePitch evs _)

/-- Claim C6 (amended): each segment is placed at starting sample index
`int(start_time * sample_rate)` — Python truncation, not `round` — the
buffer is zero-extended to exactly the segment's end index when it would
overflow (length becomes `max` of old length and end index, so it never
shrinks), the segment's samples are added to (not overwritten over) the
existing contents, and the buffer length never decreases across the whole
rendering loop. -/
theorem placement_additive :
    (∀ (buf : List ℚ) (sampleRate : Nat) (startTime : ℚ) (seg : List ℚ),
      (placeSegment buf sampleRate startTime seg).length
        = max buf.length ((pyInt (startTime * sampleRate)).toNat + seg.length) ∧
      buf.length ≤ (placeSegment buf sampleRate startTime seg).length ∧
      (∀ i, (placeSegment buf sampleRate startTime seg).getD i 0 =
        buf.getD i 0 +
          (if (pyInt (startTime * sampleRate)).toNat ≤ i ∧
              i < (pyInt (startTime * sampleRate)).toNat + seg.length
           then seg.getD (i - (pyInt (startTime * sampleRate)).toNat) 0 else 0))) ∧
    (∀ (pitchShift : List ℚ → ℤ → List ℚ) (timeStretch : List ℚ → ℚ → List ℚ)
      (sampleAudio : List ℚ) (sampleRate basePitch : Nat)
      (events : List (Nat × ℚ × ℚ)) (buf : List ℚ),
      buf.length ≤ (events.foldl
        (renderNote pitchShift timeStretch sampleAudio sampleRate basePitch) buf).length) := by
  refine ⟨fun buf sampleRate startTime seg => ⟨placeSegment_length buf sampleRate startTime seg,
    ?_, fun i => placeSegment_getD buf sampleRate startTime seg i⟩,
    fun pitchShift timeStretch sampleAudio sampleRate basePitch events buf =>
      renderLoop_length_mono pitchShift timeStretch sampleAudio sampleRate basePitch events buf⟩
  rw [placeSegment_length]
  exact le_max_left _ _

/-- Claim C6 counterexample: a segment starting at `0.27 s` with
`sample_rate = 10` lands at sample index `int(2.7) = 2`, not
`round(2.7) = 3` as the claim states. -/
theorem placement_index_not_round :
    placeSegment [0, 0, 0, 0] 10 (27 / 100) [5] = [0, 0, 5, 0] ∧
    specRound ((27 / 100 : ℚ) * ((10 : ℕ) : ℚ)) = 3 := by
  have hf : ⌊(27 / 100 : ℚ) * ((10 : ℕ) : ℚ)⌋ = (2 : ℤ) := by
    rw [Int.floor_eq_iff]
    constructor <;> norm_num
  constructor
  · norm_num [placeSegment, pyInt, hf, addInto]
  · rw [specRound, Int.floor_eq_iff]
    constructor <;> norm_num

lemma foldl_max_zeros : ∀ xs : List ℚ, (∀ y ∈ xs, y = 0) → xs.foldl max 0 = 0 := by
  intro xs h
  rcases foldl_max_cases xs 0 with h' | h'
  · exact h'
  · exact h _ h'

lemma normalize_replicate_zero (n : Nat) (h : 0 < n) :
    normalize (List.replicate n (0 : ℚ)) = some (List.replicate n 0) := by
  obtain ⟨k, rfl⟩ : ∃ k, n = k + 1 := ⟨n - 1, by omega⟩
  rw [List.replicate_succ, normalize_cons, abs_zero]
  have hm : ((List.replicate k (0 : ℚ)).map (fun z => |z|)).foldl max 0 = 0 := by
    apply foldl_max_zeros
    intro y hy
    obtain ⟨z, hz, rfl⟩ := List.mem_map.mp hy
    rw [List.eq_of_mem_replicate hz, abs_zero]
  rw [hm, if_neg (lt_irrefl 0), ← List.replicate_succ]

lemma renderTrack_nil (pitchShift : List ℚ → ℤ → List ℚ)
    (timeStretch : List ℚ → ℚ → List ℚ) (sampleAudio : List ℚ)
    (sampleRate basePitch : Nat) :
    renderTrack pitchShift timeStretch sampleAudio sampleRate basePitch []
      = List.replicate ((pyInt ((sampleRate : ℚ) * (60 + 1))).toNat) 0 := by
  unfold renderTrack maxEnd
  rfl

lemma pyInt_fallback_len (sampleRate : Nat) :
    (pyInt ((sampleRate : ℚ) * (60 + 1))).toNat = 61 * sampleRate := by
  have he : ((sampleRate : ℚ) * (60 + 1)) = ((61 * sampleRate : Nat) : ℚ) := by
    push_cast
    ring
  rw [pyInt, if_pos (by positivity), he, Int.floor_natCast]
  exact Int.toNat_natCast _

/-- Claim C9: a source whose scheduling pass yields no note instances does
not fail: the fallback span 60 is used, the returned buffer is all-zero of
length `int(sample_rate * (60 + 1))` samples (normalization skipped: the
buffer comes back unchanged), and the reported duration is
`buffer_length / sample_rate`. -/
theorem empty_notes_fallback (pitchShift : List ℚ → ℤ → List ℚ)
    (timeStretch : List ℚ → ℚ → List ℚ) (sampleAudio : List ℚ)
    (msgs : List Msg) (ticksPerBeat tempo sampleRate basePitch : Nat)
    (hsr : 0 < sampleRate)
    (hempty : (runScheduler ticksPerBeat tempo msgs).noteEvents = []) :
    (pyInt ((sampleRate : ℚ) * (60 + 1))).toNat = 61 * sampleRate ∧
    midiToAudioBuffer pitchShift timeStretch sampleAudio msgs ticksPerBeat tempo
        sampleRate basePitch
      = some (List.replicate (61 * sampleRate) 0, 61) := by
  have hsrq : ((sampleRate : ℚ)) ≠ 0 := by positivity
  refine ⟨pyInt_fallback_len sampleRate, ?_⟩
  unfold midiToAudioBuffer
  dsimp only
  rw [hempty, renderTrack_nil, pyInt_fallback_len,
    normalize_replicate_zero (61 * sampleRate) (by omega)]
  show some (List.replicate (61 * sampleRate) (0 : ℚ),
      (((List.replicate (61 * sampleRate) (0 : ℚ)).length : Nat) : ℚ) / (sampleRate : ℚ))
    = some (List.replicate (61 * sampleRate) 0, 61)
  rw [List.length_replicate]
  have : ((61 * sampleRate : Nat) : ℚ) / (sampleRate : ℚ) = 61 := by
    push_cast
    field_simp
  rw [this]

/-- Witness for C9: an empty message list at `sample_rate = 1`. -/
theorem empty_notes_fallback_witness :
    (0 < 1) ∧
    midiToAudioBuffer (fun l _ => l) (fun l _ => l) [] [] 1 120 1 60
      = some (List.replicate (61 * 1) 0, 61) :=
  ⟨by norm_num,
    (empty_notes_fallback (fun l _ => l) (fun l _ => l) [] [] 1 120 1 60
      (by norm_num) rfl).2⟩

end MidiToAudio
